import Mathlib

/-!
Verification of the midi_play repository.

The development shallowly embeds the pure control and data logic of the
three core source files:

* `src/midi_file.rs` — the pairwise chronological track merge
  (`combine_tracks`) and the event compiler (`combine_events`);
* `src/main.rs` — `FilePlayer::new` (load-time checks and track folding)
  and `FilePlayer::play_events` (the tempo-aware scheduler with
  cooperative cancellation);
* `src/driver.rs` — the `WinMidiPort` output-port model: short-message
  packing, the long-message in-flight lifecycle (`send` and
  `check_inflight`), and the error paths of `connect` and `name`.

Machine integers (`u64`, `DWORD`) are modelled as `Nat`, with an explicit
`% 2 ^ 64` where the source multiplies two `u64` values.  Driver calls are
modelled by passing their status codes as explicit inputs.  Blocking OS
waits (`WaitForSingleObject`) and channel sends are modelled as no-ops:
they dispatch nothing and decide nothing in the embedded logic.
-/

set_option maxHeartbeats 1000000

namespace MidiPlay

/-- TrackEvent from the rimd parser: a delta time in ticks (`vtime : u64`)
and an event payload.  The merge in `midi_file.rs` only ever inspects
`vtime`, so the payload is a type parameter here. -/
structure TrackEvent (α : Type) where
  vtime : Nat
  event : α
deriving Repr, DecidableEq

/-- combine_tracks (midi_file.rs, lines 21-64).  The Rust loop keeps the
pending head of each track; when both are present it selects the head of track 2
exactly when its remaining delta is strictly smaller, otherwise the head
of track 1; the non-selected pending head has the selected delta subtracted from
its `vtime` (`vtime -= selected.vtime`, which never underflows because the
selected delta is the smaller one); the selected event is pushed unchanged
and its track advances.  An exhausted side contributes nothing further. -/
def combine_tracks {α : Type} :
    List (TrackEvent α) → List (TrackEvent α) → List (TrackEvent α)
  | [], track2 => track2
  | x :: xs, [] => x :: xs
  | x :: xs, y :: ys =>
    if y.vtime < x.vtime then
      y :: combine_tracks (⟨x.vtime - y.vtime, x.event⟩ :: xs) ys
    else
      x :: combine_tracks xs (⟨y.vtime - x.vtime, y.event⟩ :: ys)
termination_by t1 t2 => t1.length + t2.length
decreasing_by
  all_goals simp_wf

theorem combine_tracks_nil_left {α : Type} (t2 : List (TrackEvent α)) :
    combine_tracks [] t2 = t2 := by
  cases t2 <;> simp [combine_tracks]

theorem combine_tracks_nil_right {α : Type} (t1 : List (TrackEvent α)) :
    combine_tracks t1 [] = t1 := by
  cases t1 <;> simp [combine_tracks]

theorem combine_tracks_cons_cons {α : Type} (x y : TrackEvent α)
    (xs ys : List (TrackEvent α)) :
    combine_tracks (x :: xs) (y :: ys) =
      if y.vtime < x.vtime then
        y :: combine_tracks (⟨x.vtime - y.vtime, x.event⟩ :: xs) ys
      else
        x :: combine_tracks xs (⟨y.vtime - x.vtime, y.event⟩ :: ys) := by
  rw [combine_tracks]

/-- Helper: the merged list has exactly the events of both inputs. -/
theorem combine_tracks_length {α : Type} :
    ∀ (A B : List (TrackEvent α)),
      (combine_tracks A B).length = A.length + B.length
  | [], B => by rw [combine_tracks_nil_left]; simp
  | x :: xs, [] => by rw [combine_tracks_nil_right]; simp
  | x :: xs, y :: ys => by
    rw [combine_tracks_cons_cons]
    by_cases h : y.vtime < x.vtime
    · rw [if_pos h]
      have ih := combine_tracks_length (⟨x.vtime - y.vtime, x.event⟩ :: xs) ys
      simp only [List.length_cons] at ih ⊢
      omega
    · rw [if_neg h]
      have ih := combine_tracks_length xs (⟨y.vtime - x.vtime, y.event⟩ :: ys)
      simp only [List.length_cons] at ih ⊢
      omega
termination_by A B => A.length + B.length
decreasing_by
  all_goals simp_wf

/-- C2: Merge preserves event count: for every pair of input track-event
lists A and B, the merged list `combine_tracks A B` has length
`|A| + |B|`. -/
theorem combine_tracks_event_count {α : Type} (A B : List (TrackEvent α)) :
    (combine_tracks A B).length = A.length + B.length :=
  combine_tracks_length A B

/-- C3: Merge tie-break determinism: at each merge step with both tracks
non-empty, the head of the second track is emitted first exactly when its
remaining delta is strictly less than the remaining delta of the first
side; on equal deltas the head of the first-folded side is emitted first.  In particular
`combine_tracks [(0, a)] [(0, b)] = [(0, a), (0, b)]`. -/
theorem combine_tracks_tiebreak {α : Type} (a b : α) :
    (∀ (x y : TrackEvent α) (xs ys : List (TrackEvent α)),
        (combine_tracks (x :: xs) (y :: ys)).head? =
          some (if y.vtime < x.vtime then y else x)) ∧
    combine_tracks [⟨0, a⟩] [⟨0, b⟩] = [⟨0, a⟩, (⟨0, b⟩ : TrackEvent α)] := by
  constructor
  · intro x y xs ys
    rw [combine_tracks_cons_cons]
    by_cases h : y.vtime < x.vtime
    · rw [if_pos h, if_pos h]
      rfl
    · rw [if_neg h, if_neg h]
      rfl
  · rw [combine_tracks_cons_cons]
    norm_num
    rw [combine_tracks_nil_left]

/-- Absolute (cumulative) times: pair every event of a delta-timed list with
the sum of the delta times up to and including it, starting from offset
`t`. -/
def absEvents {α : Type} (t : Nat) : List (TrackEvent α) → List (Nat × α)
  | [] => []
  | e :: rest => (t + e.vtime, e.event) :: absEvents (t + e.vtime) rest

/-- Tag every event payload of a track, leaving delta times unchanged. -/
def tagEvents {α β : Type} (f : α → β) (l : List (TrackEvent α)) :
    List (TrackEvent β) :=
  l.map (fun e => ⟨e.vtime, f e.event⟩)

/-- Project the timed events that originate from the left input track. -/
def pickLeft {α β : Type} : Nat × (α ⊕ β) → Option (Nat × α)
  | (t, Sum.inl a) => some (t, a)
  | (_, Sum.inr _) => none

/-- Project the timed events that originate from the right input track. -/
def pickRight {α β : Type} : Nat × (α ⊕ β) → Option (Nat × β)
  | (_, Sum.inl _) => none
  | (t, Sum.inr b) => some (t, b)

theorem absEvents_tagEvents {α β : Type} (f : α → β) (t : Nat)
    (l : List (TrackEvent α)) :
    absEvents t (tagEvents f l) = (absEvents t l).map (fun p => (p.1, f p.2)) := by
  induction l generalizing t with
  | nil => rfl
  | cons e rest ih => simp [absEvents, tagEvents] at ih ⊢; exact ih _

theorem filterMap_pickLeft_inl {α β : Type} (l : List (Nat × α)) :
    (l.map (fun p => ((p.1, Sum.inl p.2) : Nat × (α ⊕ β)))).filterMap pickLeft
      = l := by
  induction l with
  | nil => rfl
  | cons p rest ih => simp [pickLeft, ih]

theorem filterMap_pickLeft_inr {α β : Type} (l : List (Nat × β)) :
    (l.map (fun p => ((p.1, Sum.inr p.2) : Nat × (α ⊕ β)))).filterMap pickLeft
      = [] := by
  induction l with
  | nil => rfl
  | cons p rest ih => simp [pickLeft, ih]

theorem filterMap_pickRight_inr {α β : Type} (l : List (Nat × β)) :
    (l.map (fun p => ((p.1, Sum.inr p.2) : Nat × (α ⊕ β)))).filterMap pickRight
      = l := by
  induction l with
  | nil => rfl
  | cons p rest ih => simp [pickRight, ih]

theorem filterMap_pickRight_inl {α β : Type} (l : List (Nat × α)) :
    (l.map (fun p => ((p.1, Sum.inl p.2) : Nat × (α ⊕ β)))).filterMap pickRight
      = [] := by
  induction l with
  | nil => rfl
  | cons p rest ih => simp [pickRight, ih]

/-- Helper for C1: merging the left-tagged track A with the right-tagged
track B preserves, for each source track, the cumulative timestamps of its
events as they occur in the merged timeline (for any starting offset). -/
theorem combine_tracks_absEvents {α β : Type} :
    ∀ (A : List (TrackEvent α)) (B : List (TrackEvent β)) (t : Nat),
      (absEvents t (combine_tracks (tagEvents Sum.inl A)
          (tagEvents Sum.inr B))).filterMap pickLeft = absEvents t A ∧
      (absEvents t (combine_tracks (tagEvents Sum.inl A)
          (tagEvents Sum.inr B))).filterMap pickRight = absEvents t B
  | [], B, t => by
    have h0 : tagEvents (Sum.inl : α → α ⊕ β) ([] : List (TrackEvent α))
        = [] := rfl
    rw [h0, combine_tracks_nil_left, absEvents_tagEvents]
    constructor
    · rw [filterMap_pickLeft_inr]
      rfl
    · rw [filterMap_pickRight_inr]
  | x :: xs, [], t => by
    have h0 : tagEvents (Sum.inr : β → α ⊕ β) ([] : List (TrackEvent β))
        = [] := rfl
    rw [h0, combine_tracks_nil_right, absEvents_tagEvents]
    constructor
    · rw [filterMap_pickLeft_inl]
    · rw [filterMap_pickRight_inl]
      rfl
  | x :: xs, y :: ys, t => by
    have hx : tagEvents (Sum.inl : α → α ⊕ β) (x :: xs)
        = ⟨x.vtime, Sum.inl x.event⟩ :: tagEvents Sum.inl xs := rfl
    have hy : tagEvents (Sum.inr : β → α ⊕ β) (y :: ys)
        = ⟨y.vtime, Sum.inr y.event⟩ :: tagEvents Sum.inr ys := rfl
    rw [hx, hy, combine_tracks_cons_cons]
    by_cases h : y.vtime < x.vtime
    · rw [if_pos h]
      have hx2 : (⟨x.vtime - y.vtime, Sum.inl x.event⟩ : TrackEvent (α ⊕ β))
            :: tagEvents Sum.inl xs
          = tagEvents Sum.inl (⟨x.vtime - y.vtime, x.event⟩ :: xs) := rfl
      rw [hx2]
      have ih := combine_tracks_absEvents
        (⟨x.vtime - y.vtime, x.event⟩ :: xs) ys (t + y.vtime)
      rw [absEvents]
      constructor
      · rw [List.filterMap_cons]
        show (absEvents (t + y.vtime) (combine_tracks _ _)).filterMap pickLeft
          = absEvents t (x :: xs)
        rw [ih.1, absEvents, absEvents]
        have h1 : t + y.vtime + (x.vtime - y.vtime) = t + x.vtime := by omega
        rw [h1]
      · rw [List.filterMap_cons]
        show (t + y.vtime, y.event)
            :: (absEvents (t + y.vtime) (combine_tracks _ _)).filterMap pickRight
          = absEvents t (y :: ys)
        rw [ih.2, absEvents]
    · rw [if_neg h]
      have hy2 : (⟨y.vtime - x.vtime, Sum.inr y.event⟩ : TrackEvent (α ⊕ β))
            :: tagEvents Sum.inr ys
          = tagEvents Sum.inr (⟨y.vtime - x.vtime, y.event⟩ :: ys) := rfl
      rw [hy2]
      have ih := combine_tracks_absEvents
        xs (⟨y.vtime - x.vtime, y.event⟩ :: ys) (t + x.vtime)
      rw [absEvents]
      constructor
      · rw [List.filterMap_cons]
        show (t + x.vtime, x.event)
            :: (absEvents (t + x.vtime) (combine_tracks _ _)).filterMap pickLeft
          = absEvents t (x :: xs)
        rw [ih.1, absEvents]
      · rw [List.filterMap_cons]
        show (absEvents (t + x.vtime) (combine_tracks _ _)).filterMap pickRight
          = absEvents t (y :: ys)
        rw [ih.2, absEvents, absEvents]
        have h1 : t + x.vtime + (y.vtime - x.vtime) = t + y.vtime := by omega
        rw [h1]
termination_by A B _ => A.length + B.length
decreasing_by
  all_goals simp_wf

/-- C1: Merge preserves per-track cumulative timing.  Tag the events of A
with `inl` and the events of B with `inr`; in the merged timeline, the
subsequence of A-events, each paired with the cumulative sum of the merged
delta times up to and including it, is exactly the list of the events of A
paired with the cumulative delta sums of A itself — and symmetrically for B. -/
theorem combine_tracks_cumulative_timing {α β : Type}
    (A : List (TrackEvent α)) (B : List (TrackEvent β)) :
    (absEvents 0 (combine_tracks (tagEvents Sum.inl A)
        (tagEvents Sum.inr B))).filterMap pickLeft = absEvents 0 A ∧
    (absEvents 0 (combine_tracks (tagEvents Sum.inl A)
        (tagEvents Sum.inr B))).filterMap pickRight = absEvents 0 B :=
  combine_tracks_absEvents A B 0

/-- MetaEvent from the rimd parser: a numeric meta command and its raw data
bytes. -/
structure MetaEvent where
  command : Nat
  data : List Nat
deriving Repr, DecidableEq

/-- Numeric code of the rimd MetaCommand::TempoSetting variant (0x51). -/
def tempoSettingCommand : Nat := 0x51

/-- Modelled from the spec: the rimd `MetaEvent::data_as_u64(n)` belongs to
the external parser library (not under src/ of this repository); section 4.4 of the
spec describes it as reading the meta data as a fixed-width big-endian
integer, here over the first `n` data bytes. -/
def data_as_u64 (data : List Nat) (n : Nat) : Nat :=
  (data.take n).foldl (fun acc b => acc * 256 + b % 256) 0

/-- Event payload from rimd: a channel message with its raw bytes, or a meta
event. -/
inductive Event where
  | midi (data : List Nat)
  | meta (m : MetaEvent)
deriving Repr, DecidableEq

/-- LocalEvent (midi_file.rs, lines 10-13). -/
inductive LocalEvent where
  | combinedMidi (data : List Nat)
  | meta (m : MetaEvent)
deriving Repr, DecidableEq

/-- DataEvent (midi_file.rs, lines 5-8). -/
structure DataEvent where
  delta_time : Nat
  data : LocalEvent
deriving Repr, DecidableEq

/-- combine_events (midi_file.rs, lines 66-117): reclassify each merged
track event into a DataEvent, one to one, keeping its delta time (the
commented-out coalescing code in the source is dead). -/
def combine_events : List (TrackEvent Event) → List DataEvent
  | [] => []
  | e :: rest =>
    (match e.event with
      | Event.midi d => { delta_time := e.vtime, data := LocalEvent.combinedMidi d }
      | Event.meta m => { delta_time := e.vtime, data := LocalEvent.meta m })
      :: combine_events rest

/-- The u64 modulus. -/
def U64 : Nat := 2 ^ 64

/-- The wait computation of play_events (main.rs, line 486):
`event.delta_time * current_tempo / self.division` in u64 arithmetic, so the
product wraps modulo 2^64 and the division truncates. -/
def waitMicros (delta tempo division : Nat) : Nat :=
  delta * tempo % U64 / division

/-- Tempo update performed when play_events dispatches one event (main.rs,
lines 508-522): a TempoSetting meta event replaces the current tempo with
`meta.data_as_u64(3)`; every other event leaves it unchanged. -/
def tempoAfter (tempo : Nat) (e : DataEvent) : Nat :=
  match e.data with
  | LocalEvent.meta m =>
    if m.command = tempoSettingCommand then data_as_u64 m.data 3 else tempo
  | LocalEvent.combinedMidi _ => tempo

/-- Observable dispatch of one event by play_events: a device send for a
combined MIDI message, or meta processing (logged, never sent). -/
inductive Dispatch where
  | sentMidi (data : List Nat)
  | metaLogged (m : MetaEvent)
deriving Repr, DecidableEq

/-- Observable outcome of one loop iteration in play_events: the number of
RUNNING samples consumed before this dispatch, the completed wait in
microseconds (when delta_time > 0), and the dispatch itself. -/
structure Outcome where
  counter : Nat
  wait : Option Nat
  action : Dispatch
deriving Repr, DecidableEq

def dispatchOf (e : DataEvent) : Dispatch :=
  match e.data with
  | LocalEvent.combinedMidi d => Dispatch.sentMidi d
  | LocalEvent.meta m => Dispatch.metaLogged m

/-- play_events (main.rs, lines 454-538).  The loop takes the next event,
samples the RUNNING flag (breaking when false), and if `delta_time > 0`
busy-waits: each spin iteration that finds the wall-clock wait not yet
elapsed polls completions and samples RUNNING again, returning when false;
then the event is dispatched and, for a tempo meta event, the tempo updated.
`flags` gives the successive samples of the RUNNING flag, indexed by a
counter that advances once per sample; each event is paired with the number
of spin iterations its wait takes (an input of the environment, how often
the wall clock is found short).  Blocking on the OS event handle, completion
polling and channel sends have no effect on this logic and are elided. -/
def play_events (division : Nat) (flags : Nat → Bool) :
    Nat → Nat → List (DataEvent × Nat) → List Outcome
  | _, _, [] => []
  | tempo, c, (e, spins) :: rest =>
    if flags c then
      if 0 < e.delta_time then
        if (List.range spins).all (fun j => flags (c + 1 + j)) then
          { counter := c + 1 + spins,
            wait := some (waitMicros e.delta_time tempo division),
            action := dispatchOf e } ::
            play_events division flags (tempoAfter tempo e) (c + 1 + spins) rest
        else []
      else
        { counter := c + 1, wait := none, action := dispatchOf e } ::
          play_events division flags (tempoAfter tempo e) (c + 1) rest
    else []

/-- Wait list as claim C4 words it: for each event, when `delta_ticks > 0`,
the wait is `delta_ticks * tempo / division` microseconds under truncating
unsigned division, where the tempo is 500000 until a tempo meta event has
been seen and thereafter the value carried by the latest tempo meta event. -/
def specWaitList (division : Nat) : Nat → List DataEvent → List (Option Nat)
  | _, [] => []
  | tempo, e :: rest =>
    (if 0 < e.delta_time then some (e.delta_time * tempo / division) else none)
      :: specWaitList division (tempoAfter tempo e) rest

/-- Every product `delta_time * tempo` computed along the event list stays
below 2^64 (no u64 overflow). -/
def fitsU64 : Nat → List DataEvent → Bool
  | _, [] => true
  | tempo, e :: rest =>
    decide (e.delta_time * tempo < U64) && fitsU64 (tempoAfter tempo e) rest

/-- Helper for C4: with the RUNNING flag always true, the waits performed by
play_events are exactly the wait list of the spec, for any tempo and
counter. -/
theorem play_events_wait_eq (division : Nat) (l : List (DataEvent × Nat)) :
    ∀ (tempo c : Nat),
      fitsU64 tempo (l.map Prod.fst) = true →
      (play_events division (fun _ => true) tempo c l).map Outcome.wait
        = specWaitList division tempo (l.map Prod.fst) := by
  induction l with
  | nil =>
    intro tempo c _
    rfl
  | cons p rest ih =>
    intro tempo c hfit
    obtain ⟨e, spins⟩ := p
    rw [List.map_cons, fitsU64, Bool.and_eq_true, decide_eq_true_iff] at hfit
    obtain ⟨h1, h2⟩ := hfit
    have hd : e.delta_time * tempo % U64 = e.delta_time * tempo :=
      Nat.mod_eq_of_lt h1
    by_cases hdelta : 0 < e.delta_time
    · have h3 := ih (tempoAfter tempo e) (c + 1 + spins) h2
      simp [play_events, specWaitList, hdelta, waitMicros, hd, h3]
    · have h3 := ih (tempoAfter tempo e) (c + 1) h2
      simp [play_events, specWaitList, hdelta, h3]

/-- C4: Tempo arithmetic.  For every compiled event list without u64
overflow, the wait performed before each event with `delta_ticks > 0` is
`delta_ticks * tempo / division` microseconds under truncating unsigned
division, where the tempo is 500000 until a tempo meta event is seen; in
particular division 480, tempo 500000, delta 480 gives 500000 microseconds,
and division 480, tempo 250000, delta 240 gives 125000 microseconds. -/
theorem play_events_tempo_arithmetic (division : Nat) (l : List (DataEvent × Nat))
    (hdiv : 0 < division) (hfit : fitsU64 500000 (l.map Prod.fst) = true) :
    (play_events division (fun _ => true) 500000 0 l).map Outcome.wait
      = specWaitList division 500000 (l.map Prod.fst) ∧
    waitMicros 480 500000 480 = 500000 ∧
    waitMicros 240 250000 480 = 125000 := by
  refine ⟨play_events_wait_eq division l 500000 0 hfit, by decide, by decide⟩

/-- C4 witness: the theorem applied to a concrete two-event list (a note-on
after one beat, then a note-off after a tempo change to 250000). -/
theorem play_events_tempo_arithmetic_witness :
    (play_events 480 (fun _ => true) 500000 0
        [({ delta_time := 480, data := LocalEvent.combinedMidi [144, 64, 127] }, 0),
         ({ delta_time := 0,
            data := LocalEvent.meta { command := 0x51, data := [3, 208, 144] } }, 0),
         ({ delta_time := 240, data := LocalEvent.combinedMidi [128, 64, 0] }, 1)]).map
        Outcome.wait
      = specWaitList 480 500000
          ([({ delta_time := 480, data := LocalEvent.combinedMidi [144, 64, 127] }, 0),
            ({ delta_time := 0,
               data := LocalEvent.meta { command := 0x51, data := [3, 208, 144] } }, 0),
            ({ delta_time := 240, data := LocalEvent.combinedMidi [128, 64, 0] }, 1)].map
            Prod.fst) ∧
    waitMicros 480 500000 480 = 500000 ∧
    waitMicros 240 250000 480 = 125000 :=
  play_events_tempo_arithmetic 480 _ (by decide) (by decide)

/-- Helper for C8: provided every RUNNING sample below the starting counter
was true, every outcome play_events dispatches has its sample counter
bounded by any index at which the flag is false. -/
theorem play_events_counter_le (division : Nat) (flags : Nat → Bool) (k : Nat)
    (hk : flags k = false) (l : List (DataEvent × Nat)) :
    ∀ (tempo c : Nat),
      (∀ j, j < c → flags j = true) →
      ∀ o ∈ play_events division flags tempo c l, o.counter ≤ k := by
  induction l with
  | nil =>
    intro tempo c _ o ho
    simp [play_events] at ho
  | cons p rest ih =>
    intro tempo c hinv o ho
    obtain ⟨e, spins⟩ := p
    rw [play_events] at ho
    by_cases hc : flags c = true
    · rw [if_pos hc] at ho
      have hinv1 : ∀ j, j < c + 1 → flags j = true := by
        intro j hj
        rcases Nat.lt_succ_iff_lt_or_eq.mp hj with h | h
        · exact hinv j h
        · rw [h]; exact hc
      by_cases hdelta : 0 < e.delta_time
      · rw [if_pos hdelta] at ho
        by_cases hall : ((List.range spins).all fun j => flags (c + 1 + j)) = true
        · rw [if_pos hall] at ho
          rw [List.all_eq_true] at hall
          have hinv2 : ∀ j, j < c + 1 + spins → flags j = true := by
            intro j hj
            by_cases hj1 : j < c + 1
            · exact hinv1 j hj1
            · have := hall (j - (c + 1)) (by simp; omega)
              simp at this
              have hje : c + 1 + (j - (c + 1)) = j := by omega
              rw [hje] at this
              exact this
          have hkge : c + 1 + spins ≤ k := by
            by_contra hcon
            rw [hinv2 k (by omega)] at hk
            exact Bool.noConfusion hk
          rcases List.mem_cons.mp ho with h | h
          · rw [h]
            exact hkge
          · exact ih (tempoAfter tempo e) (c + 1 + spins) hinv2 o h
        · rw [if_neg hall] at ho
          simp at ho
      · rw [if_neg hdelta] at ho
        have hkge : c + 1 ≤ k := by
          by_contra hcon
          rw [hinv1 k (by omega)] at hk
          exact Bool.noConfusion hk
        rcases List.mem_cons.mp ho with h | h
        · rw [h]
          exact hkge
        · exact ih (tempoAfter tempo e) (c + 1) hinv1 o h
    · rw [if_neg hc] at ho
      simp at ho

/-- C8: Cancellation stops dispatch.  If the k-th sample of the RUNNING
flag is
false, then every outcome dispatched by play_events consumed at most k
samples: once the loop observes the flag false — at the top-of-loop check or
on a spin iteration during a wait — nothing further is dispatched, so no
device send occurs after the flag is observed. -/
theorem play_events_cancellation (division : Nat) (flags : Nat → Bool)
    (l : List (DataEvent × Nat)) (tempo k : Nat) (hk : flags k = false) :
    ∀ o ∈ play_events division flags tempo 0 l, o.counter ≤ k :=
  play_events_counter_le division flags k hk l tempo 0
    (fun j hj => absurd hj (Nat.not_lt_zero j))

/-- C8 witness: with the RUNNING flag false from sample 1 on, every
dispatched outcome of a concrete two-event playback has counter at most
1. -/
theorem play_events_cancellation_witness :
    (play_events 480 (fun n => n == 0) 500000 0
        [({ delta_time := 0, data := LocalEvent.combinedMidi [144, 64, 127] }, 0),
         ({ delta_time := 0, data := LocalEvent.combinedMidi [128, 64, 0] }, 0)]).all
      (fun o => decide (o.counter ≤ 1)) = true := by
  have h := play_events_cancellation 480 (fun n => n == 0)
    [({ delta_time := 0, data := LocalEvent.combinedMidi [144, 64, 127] }, 0),
     ({ delta_time := 0, data := LocalEvent.combinedMidi [128, 64, 0] }, 0)]
    500000 1 rfl
  rw [List.all_eq_true]
  intro o ho
  simpa using h o ho

/-! Driver model (driver.rs).  Windows multimedia status codes used by the
source, from the winapi mmsystem module. -/

def MMSYSERR_NOERROR : Nat := 0

def MMSYSERR_BASE : Nat := 0

def MMSYSERR_BADDEVICEID : Nat := 2

def MIDIERR_BASE : Nat := 64

def MIDIERR_STILLPLAYING : Nat := 65

def MIDIERR_NOTREADY : Nat := 67

/-- Write byte `b` at byte offset `i` of a little-endian machine word
(driver.rs, line 135: the byte store through a pointer into the DWORD). -/
def storeByte (word i b : Nat) : Nat :=
  word % 256 ^ i + b % 256 * 256 ^ i + word / 256 ^ (i + 1) * 256 ^ (i + 1)

/-- The short-message packet built by send for messages of at most 3 bytes
(driver.rs, lines 129-138): a DWORD initialized to 0 whose bytes
0..len-1 are overwritten with the message bytes in ascending offsets. -/
def shortMsgPacket (message : List Nat) : Nat :=
  (List.range message.length).foldl
    (fun packet i => storeByte packet i (message.getD i 0)) 0

/-- C5: Short-message packing.  For every non-empty message of at most
3 bytes (each a u8), the packet has byte i of the message in byte position
i of the word (byte 0 least significant) and zero in every higher byte
position, and fits in 32 bits; in particular the bytes
`[0x90, 0x40, 0x7F]` pack to `0x007F4090`. -/
theorem send_short_packing :
    (∀ message : List Nat, (∀ b ∈ message, b < 256) →
      message ≠ [] → message.length ≤ 3 →
      (∀ i, i < message.length →
        shortMsgPacket message / 256 ^ i % 256 = message.getD i 0) ∧
      (∀ i, message.length ≤ i → shortMsgPacket message / 256 ^ i % 256 = 0) ∧
      shortMsgPacket message < 2 ^ 32) ∧
    shortMsgPacket [0x90, 0x40, 0x7F] = 0x007F4090 := by
  constructor
  · intro message hbytes hne hlen
    match message with
    | [b0] =>
      have hb0 : b0 < 256 := hbytes b0 (by simp)
      have hv : shortMsgPacket [b0] = b0 := by
        have e1 : shortMsgPacket [b0] = storeByte 0 0 b0 := rfl
        rw [e1, storeByte]
        norm_num
        omega
      refine ⟨?_, ?_, ?_⟩
      · intro i hi
        have hi0 : i = 0 := by simpa using hi
        subst hi0
        simpa [hv] using by omega
      · intro i hi
        rw [hv]
        have h3 : 256 ^ 1 ≤ 256 ^ i := Nat.pow_le_pow_right (by norm_num) hi
        have : b0 / 256 ^ i = 0 := Nat.div_eq_of_lt (by omega)
        rw [this]
      · rw [hv]; omega
    | [b0, b1] =>
      have hb0 : b0 < 256 := hbytes b0 (by simp)
      have hb1 : b1 < 256 := hbytes b1 (by simp)
      have hv : shortMsgPacket [b0, b1] = b0 + 256 * b1 := by
        have e1 : shortMsgPacket [b0, b1] = storeByte (storeByte 0 0 b0) 1 b1 := rfl
        rw [e1, storeByte, storeByte]
        norm_num
        omega
      refine ⟨?_, ?_, ?_⟩
      · intro i hi
        norm_num at hi
        interval_cases i
        · simpa [hv] using by omega
        · simpa [hv] using by omega
      · intro i hi
        rw [hv]
        have h3 : 256 ^ 2 ≤ 256 ^ i := Nat.pow_le_pow_right (by norm_num) hi
        have : (b0 + 256 * b1) / 256 ^ i = 0 := Nat.div_eq_of_lt (by norm_num at h3 ⊢; omega)
        rw [this]
      · rw [hv]; omega
    | [b0, b1, b2] =>
      have hb0 : b0 < 256 := hbytes b0 (by simp)
      have hb1 : b1 < 256 := hbytes b1 (by simp)
      have hb2 : b2 < 256 := hbytes b2 (by simp)
      have hv : shortMsgPacket [b0, b1, b2] = b0 + 256 * b1 + 65536 * b2 := by
        have e1 : shortMsgPacket [b0, b1, b2]
            = storeByte (storeByte (storeByte 0 0 b0) 1 b1) 2 b2 := rfl
        rw [e1, storeByte, storeByte, storeByte]
        norm_num
        omega
      refine ⟨?_, ?_, ?_⟩
      · intro i hi
        norm_num at hi
        interval_cases i
        · simpa [hv] using by omega
        · simpa [hv] using by omega
        · simpa [hv] using by omega
      · intro i hi
        rw [hv]
        have h3 : 256 ^ 3 ≤ 256 ^ i := Nat.pow_le_pow_right (by norm_num) hi
        have : (b0 + 256 * b1 + 65536 * b2) / 256 ^ i = 0 :=
          Nat.div_eq_of_lt (by norm_num at h3 ⊢; omega)
        rw [this]
      · rw [hv]; omega
    | b0 :: b1 :: b2 :: b3 :: rest => simp at hlen
  · decide

/-- C5 witness: the theorem applied to the concrete message bytes
`[0x90, 0x40, 0x7F]`, extracting byte position 1. -/
theorem send_short_packing_witness :
    shortMsgPacket [0x90, 0x40, 0x7F] / 256 ^ 1 % 256 = 0x40 := by
  have h := (send_short_packing.1 [0x90, 0x40, 0x7F]
    (by decide) (by decide) (by decide)).1 1 (by decide)
  simpa using h

/-- InflightRequest (driver.rs, lines 34-38): the owned message bytes and
the driver header, of which only the done bit (`dwFlags & MHDR_DONE`)
matters to the embedded logic; a freshly built header has dwFlags = 0. -/
structure InflightRequest where
  message : List Nat
  done : Bool
deriving Repr, DecidableEq

/-- First status of the busy-retry loop that is not MIDIERR_NOTREADY
(driver.rs, lines 185-198: `midiOutLongMsg` is retried while the driver
reports not ready); none when every offered status is not-ready (the loop
spins on, by design). -/
def firstReady : List Nat → Option Nat
  | [] => none
  | s :: rest => if s = MIDIERR_NOTREADY then firstReady rest else some s

/-- The long-message path of send (driver.rs, lines 154-199): push a fresh
in-flight entry (done bit clear), prepare the header — on a non-zero status
pop the entry and fail; then submit, retrying while not ready — on a
non-zero status pop the entry and fail, else keep the entry.  The driver
responses are passed in as the prepare status and the list of submit
statuses; the result carries the error code or unit, and the in-flight
collection after the call. -/
def send_long (inflight : List InflightRequest) (message : List Nat)
    (prepareStatus : Nat) (submitStatuses : List Nat) :
    Option (Except Nat Unit × List InflightRequest) :=
  let inflight1 := inflight ++ [{ message := message, done := false }]
  if prepareStatus ≠ MMSYSERR_NOERROR then
    some (Except.error (prepareStatus - MMSYSERR_BASE), inflight1.dropLast)
  else
    match firstReady submitStatuses with
    | none => none
    | some s =>
      if s ≠ MMSYSERR_NOERROR then
        some (Except.error (s - MIDIERR_BASE), inflight1.dropLast)
      else
        some (Except.ok (), inflight1)

/-- C6: Long-send atomicity on error.  If the prepare step fails, or the
submission settles on a status other than not-ready and other than success,
send fails and the in-flight collection is exactly what it was before the
call (the freshly appended entry is removed); on success exactly the one
new entry (the message, done bit clear) is appended. -/
theorem send_long_error_atomicity (inflight : List InflightRequest)
    (message : List Nat) (prep : Nat) (subs : List Nat) :
    (prep ≠ 0 → send_long inflight message prep subs =
        some (Except.error (prep - MMSYSERR_BASE), inflight)) ∧
    (∀ s, prep = 0 → firstReady subs = some s → s ≠ 0 →
        send_long inflight message prep subs =
          some (Except.error (s - MIDIERR_BASE), inflight)) ∧
    (prep = 0 → firstReady subs = some 0 →
        send_long inflight message prep subs =
          some (Except.ok (),
            inflight ++ [{ message := message, done := false }])) := by
  refine ⟨?_, ?_, ?_⟩
  · intro hprep
    rw [send_long]
    simp only [MMSYSERR_NOERROR, MMSYSERR_BASE]
    rw [if_pos hprep, List.dropLast_concat]
  · intro s hprep hfirst hs
    rw [send_long]
    simp only [MMSYSERR_NOERROR, MMSYSERR_BASE]
    rw [if_neg (by omega), hfirst]
    simp only []
    rw [if_pos hs, List.dropLast_concat]
  · intro hprep hfirst
    rw [send_long]
    simp only [MMSYSERR_NOERROR, MMSYSERR_BASE]
    rw [if_neg (by omega), hfirst]
    simp

/-- C6 witness: the three cases of the theorem at concrete inputs: a failing
prepare (status 11), a failing submission (status 68 after one not-ready),
and a successful submission, on a one-entry in-flight collection. -/
theorem send_long_error_atomicity_witness :
    send_long [{ message := [1], done := true }] [240, 1, 2, 3, 247] 11 []
      = some (Except.error 11, [{ message := [1], done := true }]) ∧
    send_long [{ message := [1], done := true }] [240, 1, 2, 3, 247] 0 [67, 68]
      = some (Except.error 4, [{ message := [1], done := true }]) ∧
    send_long [{ message := [1], done := true }] [240, 1, 2, 3, 247] 0 [67, 0]
      = some (Except.ok (),
          [{ message := [1], done := true },
           { message := [240, 1, 2, 3, 247], done := false }]) := by
  refine ⟨?_, ?_, ?_⟩
  · exact (send_long_error_atomicity [{ message := [1], done := true }]
      [240, 1, 2, 3, 247] 11 []).1 (by decide)
  · exact (send_long_error_atomicity [{ message := [1], done := true }]
      [240, 1, 2, 3, 247] 0 [67, 68]).2.1 68 rfl (by decide) (by decide)
  · exact (send_long_error_atomicity [{ message := [1], done := true }]
      [240, 1, 2, 3, 247] 0 [67, 0]).2.2 rfl (by decide)

/-- Index the elements of a list starting from `i` (the
`iter_mut().enumerate()` of driver.rs, line 212). -/
def enumFromIdx {α : Type} (i : Nat) : List α → List (Nat × α)
  | [] => []
  | x :: xs => (i, x) :: enumFromIdx (i + 1) xs

/-- Erase the given indices from a list, popping them from the END of the
index list first (the `while let Some(index) = ...pop()` loop of driver.rs,
lines 229-231, where `Vec::remove` is `List.eraseIdx`). -/
def eraseFold {α : Type} (l : List α) (idxs : List Nat) : List α :=
  idxs.reverse.foldl (fun acc i => acc.eraseIdx i) l

theorem enumFromIdx_succ {α : Type} (i : Nat) (l : List α) :
    enumFromIdx (i + 1) l = (enumFromIdx i l).map (fun p => (p.1 + 1, p.2)) := by
  induction l generalizing i with
  | nil => rfl
  | cons x xs ih =>
    rw [enumFromIdx, enumFromIdx, List.map_cons, ih (i + 1)]

theorem enumFromIdx_map_snd {α : Type} (i : Nat) (l : List α) :
    (enumFromIdx i l).map Prod.snd = l := by
  induction l generalizing i with
  | nil => rfl
  | cons x xs ih => rw [enumFromIdx, List.map_cons, ih (i + 1)]

theorem mem_enumFromIdx_of_mem {α : Type} (e : α) (l : List α) (he : e ∈ l)
    (i : Nat) : ∃ j, (j, e) ∈ enumFromIdx i l := by
  induction l generalizing i with
  | nil => exact absurd he (List.not_mem_nil e)
  | cons x xs ih =>
    rcases List.mem_cons.mp he with h | h
    · exact ⟨i, by rw [h, enumFromIdx]; exact List.mem_cons_self _ _⟩
    · obtain ⟨j, hj⟩ := ih h (i + 1)
      exact ⟨j, by rw [enumFromIdx]; exact List.mem_cons_of_mem _ hj⟩

theorem filterMapComm {α β : Type} (f : α → β) (p : β → Bool) (l : List α) :
    (l.map f).filter p = (l.filter (fun a => p (f a))).map f := by
  induction l with
  | nil => rfl
  | cons x xs ih =>
    rw [List.map_cons, List.filter_cons, List.filter_cons]
    by_cases h : p (f x) = true
    · rw [if_pos h, if_pos h, List.map_cons, ih]
    · rw [if_neg h, if_neg h, ih]

theorem foldl_eraseIdx_shift {α : Type} (js : List Nat) (x : α) (l : List α) :
    (js.map (· + 1)).foldl (fun acc i => acc.eraseIdx i) (x :: l)
      = x :: js.foldl (fun acc i => acc.eraseIdx i) l := by
  induction js generalizing l with
  | nil => rfl
  | cons j js ih =>
    rw [List.map_cons, List.foldl_cons, List.foldl_cons]
    show (js.map (· + 1)).foldl _ ((x :: l).eraseIdx (j + 1)) = _
    rw [List.eraseIdx_cons_succ, ih]

theorem eraseFold_shift {α : Type} (x : α) (l : List α) (js : List Nat) :
    eraseFold (x :: l) (js.map (· + 1)) = x :: eraseFold l js := by
  rw [eraseFold, eraseFold, ← List.map_reverse, foldl_eraseIdx_shift]

theorem eraseFold_zero_shift {α : Type} (x : α) (l : List α) (js : List Nat) :
    eraseFold (x :: l) (0 :: js.map (· + 1)) = eraseFold l js := by
  rw [eraseFold, List.reverse_cons, List.foldl_append, ← List.map_reverse,
    foldl_eraseIdx_shift]
  rfl

/-- Helper for C7: removing exactly the indices whose entries satisfy `C`
(collected in ascending order, then erased from the largest index down)
leaves exactly the entries not satisfying `C`, in their original order. -/
theorem eraseFold_enum_filter {α : Type} :
    ∀ (l : List α) (C : Nat × α → Bool),
      eraseFold l (((enumFromIdx 0 l).filter C).map Prod.fst)
        = ((enumFromIdx 0 l).filter (fun p => !(C p))).map Prod.snd := by
  intro l
  induction l with
  | nil => intro C; rfl
  | cons x xs ih =>
    intro C
    rw [enumFromIdx, enumFromIdx_succ, List.filter_cons, List.filter_cons]
    rw [filterMapComm, filterMapComm]
    have hfst : ∀ m : List (Nat × α),
        (m.map (fun p => (p.1 + 1, p.2))).map Prod.fst
          = (m.map Prod.fst).map (· + 1) := by
      intro m
      rw [List.map_map, List.map_map]
      rfl
    have hsnd : ∀ m : List (Nat × α),
        (m.map (fun p => (p.1 + 1, p.2))).map Prod.snd = m.map Prod.snd := by
      intro m
      rw [List.map_map]
      rfl
    by_cases hC : C (0, x) = true
    · rw [if_pos hC, if_neg (by simp [hC])]
      rw [List.map_cons, hfst]
      show eraseFold (x :: xs)
        (0 :: ((List.map Prod.fst _).map (· + 1))) = _
      rw [eraseFold_zero_shift, ih (fun p => C (p.1 + 1, p.2)), hsnd]
    · rw [if_neg hC, if_pos (by simp [hC])]
      rw [hfst, eraseFold_shift, ih (fun p => C (p.1 + 1, p.2)),
        List.map_cons, hsnd]

/-- check_inflight (driver.rs, lines 209-234): walk the in-flight entries
with their indices; skip any entry whose done bit is unset; for the rest
call midiOutUnprepareHeader — `unprepStatus i` is the status the driver
gives for
entry i — and collect the index unless the driver reports still-playing;
finally pop the collected indices (largest first) and remove each from the
collection. -/
def check_inflight (unprepStatus : Nat → Nat)
    (inflight : List InflightRequest) : List InflightRequest :=
  eraseFold inflight
    (((enumFromIdx 0 inflight).filter
        (fun p => p.2.done && (unprepStatus p.1 != MIDIERR_STILLPLAYING))).map
      Prod.fst)

theorem mem_check_inflight_of_not_done (u : Nat → Nat)
    (l : List InflightRequest) (e : InflightRequest) (he : e ∈ l)
    (hd : e.done = false) : e ∈ check_inflight u l := by
  rw [check_inflight, eraseFold_enum_filter]
  obtain ⟨j, hj⟩ := mem_enumFromIdx_of_mem e l he 0
  exact List.mem_map.mpr ⟨(j, e), List.mem_filter.mpr ⟨hj, by simp [hd]⟩, rfl⟩

/-- C7: In-flight reclamation condition.  One poll removes an entry exactly
when its done bit is set and unprepare does not report still-playing, and
the surviving entries keep their original relative order (the filter
equation); when every done entry still reports still-playing, arbitrarily
many polls leave the collection unchanged; and an entry whose done bit is
unset survives any sequence of polls, whatever the driver answers. -/
theorem check_inflight_reclamation (unprep : Nat → Nat)
    (l : List InflightRequest) :
    check_inflight unprep l
      = ((enumFromIdx 0 l).filter
          (fun p => !(p.2.done && (unprep p.1 != MIDIERR_STILLPLAYING)))).map
        Prod.snd ∧
    ((∀ p ∈ enumFromIdx 0 l, p.2.done = true →
        unprep p.1 = MIDIERR_STILLPLAYING) →
      ∀ n, (check_inflight unprep)^[n] l = l) ∧
    (∀ us : List (Nat → Nat), ∀ e ∈ l, e.done = false →
      e ∈ us.foldl (fun acc u => check_inflight u acc) l) := by
  refine ⟨?_, ?_, ?_⟩
  · rw [check_inflight, eraseFold_enum_filter]
  · intro hstill n
    have hone : check_inflight unprep l = l := by
      rw [check_inflight, eraseFold_enum_filter]
      have : ∀ p ∈ enumFromIdx 0 l,
          (!(p.2.done && (unprep p.1 != MIDIERR_STILLPLAYING))) = true := by
        intro p hp
        by_cases hdone : p.2.done = true
        · simp [hdone, hstill p hp hdone]
        · simp [Bool.eq_false_iff.mpr hdone]
      rw [List.filter_eq_self.mpr this, enumFromIdx_map_snd]
    induction n with
    | zero => rfl
    | succ n ihn => rw [Function.iterate_succ_apply, hone, ihn]
  · intro us
    induction us generalizing l with
    | nil => intro e he _; exact he
    | cons u us ih =>
      intro e he hd
      exact ih (check_inflight u l) e
        (mem_check_inflight_of_not_done u l e he hd) hd

/-- C7 witness: a two-entry collection where the first entry is done and no
longer playing (status 0) and the second is done but still playing: one
poll keeps exactly the second; an undone entry survives two polls. -/
theorem check_inflight_reclamation_witness :
    check_inflight (fun i => if i = 0 then 0 else MIDIERR_STILLPLAYING)
        [{ message := [1], done := true }, { message := [2], done := true }]
      = ((enumFromIdx 0
          [{ message := [1], done := true },
           ({ message := [2], done := true } : InflightRequest)]).filter
          (fun p => !(p.2.done &&
            ((fun i => if i = 0 then 0 else MIDIERR_STILLPLAYING) p.1
              != MIDIERR_STILLPLAYING)))).map Prod.snd ∧
    ({ message := [3], done := false } : InflightRequest) ∈
      [fun _ => 0, fun _ => 0].foldl (fun acc u => check_inflight u acc)
        [{ message := [3], done := false }] := by
  constructor
  · exact (check_inflight_reclamation
      (fun i => if i = 0 then 0 else MIDIERR_STILLPLAYING)
      [{ message := [1], done := true }, { message := [2], done := true }]).1
  · exact (check_inflight_reclamation (fun _ => 0)
      [{ message := [3], done := false }]).2.2
      [fun _ => 0, fun _ => 0] { message := [3], done := false }
      (List.mem_singleton.mpr rfl) rfl

/-- The distinct error constructions of driver.rs: the dedicated
"Port number out of range" error (name, line 63), the formatted
name-retrieval failure (name, lines 64-68), and the formatted port-creation
failure used by connect for every non-zero open status (lines 94-99).  Each
formatted error carries the code the source embeds in its message. -/
inductive DriverError where
  | portOutOfRange
  | retrieveNameFailed (code : Nat)
  | createPortFailed (code : Nat)
deriving Repr, DecidableEq

/-- connect (driver.rs, lines 81-107): the midiOutOpen status decides the
result; any non-zero status — the bad-device-id status included — produces
the one createPortFailed error carrying `result - MMSYSERR_BASE`; there is
no separate bad-device-id branch in connect. -/
def connect (openStatus : Nat) : Except DriverError Unit :=
  if openStatus ≠ MMSYSERR_NOERROR then
    Except.error (DriverError.createPortFailed (openStatus - MMSYSERR_BASE))
  else Except.ok ()

/-- name (driver.rs, lines 52-79): the midiOutGetDevCapsW status decides
the result: MMSYSERR_BADDEVICEID gives the distinct portOutOfRange error,
any other non-zero status the formatted retrieval failure, else the device
name read from the capabilities. -/
def port_name (devCapsStatus : Nat) (devName : String) :
    Except DriverError String :=
  if devCapsStatus = MMSYSERR_BADDEVICEID then
    Except.error DriverError.portOutOfRange
  else if devCapsStatus ≠ MMSYSERR_NOERROR then
    Except.error (DriverError.retrieveNameFailed (devCapsStatus - MMSYSERR_BASE))
  else Except.ok devName

/-- C9 counterexample: connect on the out-of-range status
MMSYSERR_BADDEVICEID (2) yields the same generic createPortFailed error
construction it yields for any other failing status (such as 5), and that
error is not the distinct out-of-range error kind, so connect does not fail
with a distinct BadDeviceId error. -/
theorem connect_baddeviceid_uniform :
    connect MMSYSERR_BADDEVICEID
      = Except.error (DriverError.createPortFailed 2) ∧
    connect 5 = Except.error (DriverError.createPortFailed 5) ∧
    DriverError.createPortFailed 2 ≠ DriverError.portOutOfRange := by
  refine ⟨rfl, rfl, ?_⟩
  intro h
  exact DriverError.noConfusion h

/-- C9 amended: connect fails with the single generic DeviceError
construction (createPortFailed, carrying the status code) for every
non-zero driver status, the out-of-range status included; the distinct
BadDeviceId error (portOutOfRange) is produced only by the device-name
lookup. -/
theorem connect_error_taxonomy (s : Nat) (hs : s ≠ 0) (devName : String) :
    connect s
      = Except.error (DriverError.createPortFailed (s - MMSYSERR_BASE)) ∧
    port_name MMSYSERR_BADDEVICEID devName
      = Except.error DriverError.portOutOfRange := by
  refine ⟨?_, rfl⟩
  rw [connect, if_pos (by simpa [MMSYSERR_NOERROR] using hs)]

/-- C9 witness: the amended theorem at the concrete out-of-range status. -/
theorem connect_error_taxonomy_witness :
    connect 2 = Except.error (DriverError.createPortFailed (2 - MMSYSERR_BASE)) ∧
    port_name MMSYSERR_BADDEVICEID "Microsoft GS Wavetable Synth"
      = Except.error DriverError.portOutOfRange :=
  connect_error_taxonomy 2 (by decide) "Microsoft GS Wavetable Synth"

/-- One step of the track-folding loop of FilePlayer::new (main.rs, lines
434-438): the first track replaces the empty accumulator, every further
track is merged into it. -/
def combineStep (events : Option (List (TrackEvent Event)))
    (track : List (TrackEvent Event)) : Option (List (TrackEvent Event)) :=
  match events with
  | some previous => some (combine_tracks previous track)
  | none => some track

/-- The track fold of FilePlayer::new (main.rs, lines 422-439): events
starts as None and each track is folded in; a file with no tracks leaves
it None. -/
def buildTrackEvents (tracks : List (List (TrackEvent Event))) :
    Option (List (TrackEvent Event)) :=
  tracks.foldl combineStep none

/-- Load-time failures of FilePlayer::new: the SMPTE (negative division)
rejection and the "No events found" error. -/
inductive LoadError where
  | smpteNotSupported
  | noEventsFound
deriving Repr, DecidableEq

/-- FilePlayer::new (main.rs, lines 410-452): reject a negative (SMPTE)
division, fold the tracks, fail with "No events found" when the fold
produced nothing, else keep the division as u64 and the compiled merged
events. -/
def filePlayer_new (division : Int)
    (tracks : List (List (TrackEvent Event))) :
    Except LoadError (Nat × List DataEvent) :=
  if division < 0 then Except.error LoadError.smpteNotSupported
  else
    match buildTrackEvents tracks with
    | none => Except.error LoadError.noEventsFound
    | some evs => Except.ok (division.toNat, combine_events evs)

theorem foldl_combineStep_isSome (init : List (TrackEvent Event))
    (ts : List (List (TrackEvent Event))) :
    (ts.foldl combineStep (some init)).isSome = true := by
  induction ts generalizing init with
  | nil => rfl
  | cons t ts ih =>
    rw [List.foldl_cons]
    show (ts.foldl combineStep (some (combine_tracks init t))).isSome = true
    exact ih _

/-- C10 counterexample: a file with one present but empty track — whose
merged timeline therefore contains no events — loads successfully with an
empty compiled event list instead of failing with the "no events found"
error. -/
theorem load_all_empty_tracks_succeeds :
    filePlayer_new 480 [[]] = Except.ok (480, []) ∧
    filePlayer_new 480 [[]] ≠ Except.error LoadError.noEventsFound := by
  refine ⟨rfl, ?_⟩
  intro h
  rw [show filePlayer_new 480 [[]] = Except.ok (480, []) from rfl] at h
  exact Except.noConfusion h

/-- C10 amended: with a non-negative division, loading fails with the
"no events found" error exactly when the file contains no tracks at all; a
file with at least one track, even if every track is empty, loads
successfully. -/
theorem load_no_events_iff_no_tracks (division : Int) (hdiv : 0 ≤ division)
    (tracks : List (List (TrackEvent Event))) :
    filePlayer_new division tracks = Except.error LoadError.noEventsFound
      ↔ tracks = [] := by
  rw [filePlayer_new, if_neg (by omega)]
  cases tracks with
  | nil =>
    simp [buildTrackEvents]
  | cons t ts =>
    obtain ⟨v, hv⟩ := Option.isSome_iff_exists.mp (foldl_combineStep_isSome t ts)
    have h2 : buildTrackEvents (t :: ts) = some v := by
      rw [buildTrackEvents, List.foldl_cons]
      exact hv
    rw [h2]
    simp

/-- C10 witness: the amended theorem at the concrete no-tracks input. -/
theorem load_no_events_iff_no_tracks_witness :
    filePlayer_new 0 [] = Except.error LoadError.noEventsFound :=
  (load_no_events_iff_no_tracks 0 (by decide) []).mpr rfl

end MidiPlay
